import Mathlib

/-!
# Verification of the eda event-streaming library

A shallow embedding of the `chop-dbhi/eda` Go library: the codec registry
(`codec/codec.go`), the `Data` / `Message` envelope model and wire marshaler
(`types.go`), the STAN connection's publish and subscribe paths (`stan.go`,
and the older `stanConn` kept in `encode.go`), and the subscription option
assembly.

Modelling conventions:
* Go byte slices are `List Nat` with entries below 256; Go strings used as
  payloads are byte lists as well (Go strings are raw byte sequences), while
  strings used only as identifiers/tags (ids, types, encoding names) are Lean
  `String`s.
* Go `time.Time` instants are modelled by their nanosecond offset from the
  Unix epoch as an unbounded `Int`; the zero instant (year 1) is the constant
  `goZeroTimeNanos`.
* The external `encoding/json` package is modelled from the spec as a
  serializer and parser over the JSON data model (`Jval`), using Go's
  escaping rules and UTF-8 bytes at the codec boundary.
* The external `golang/protobuf` wire format is modelled from the spec as an
  invertible structural encoding `PWire`, in which non-protobuf byte strings
  are represented by `PWire.junk` and fail to decode.
* Methods on pointer receivers are embedded state-passing style: they return
  the updated receiver together with their result.
-/

/-! ## Bytes -/

/-- Go `[]byte`, modelled as a list of naturals below 256 (the bound is
maintained by construction, not by the type). -/
abbrev GoBytes := List Nat

/-! ## The JSON data model

Modelled from the spec: the `json` encoding delegates to Go's external
`encoding/json` package, which is not part of this repository.  `Jval` is
the JSON data model it operates on, restricted to integer numbers (floats,
leading-zero rejection and reflection-driven struct encoding are outside the
model), with strings at the Unicode-scalar level. -/

/-- A JSON value: null, booleans, integer numbers, strings (as scalar lists),
arrays, and objects (as ordered key/value lists, as Go produces from sorted
map keys). -/
inductive Jval : Type where
  | jnull : Jval
  | jbool : Bool → Jval
  | jint : Int → Jval
  | jstr : List Char → Jval
  | jarr : List Jval → Jval
  | jobj : List (List Char × Jval) → Jval

/-- The decimal digit character for `k < 10`. -/
def jdigit (k : Nat) : Char := Char.ofNat (48 + k)

/-- The lowercase hexadecimal digit character for `k < 16`. -/
def hexChar (k : Nat) : Char :=
  if k < 10 then Char.ofNat (48 + k) else Char.ofNat (87 + k)

/-- Decimal digit characters of a natural, most significant first. -/
def natChars (n : Nat) : List Char :=
  if n < 10 then [jdigit n]
  else natChars (n / 10) ++ [jdigit (n % 10)]
termination_by n
decreasing_by exact Nat.div_lt_self (by omega) (by omega)

/-- Decimal characters of an integer: optional minus sign, then digits. -/
def intChars (i : Int) : List Char :=
  if i < 0 then '-' :: natChars i.natAbs else natChars i.natAbs

/-- The numeric value of a list of decimal digit characters. -/
def charsVal (ds : List Char) : Nat :=
  ds.foldl (fun a c => a * 10 + (c.toNat - 48)) 0

/-- Go's JSON escaping of one character (`encoding/json` with the default
HTML escaping): `"`, `\`, newline, carriage return and tab get two-character
escapes; other control characters and `<`, `>`, `&` become `\u00XX`; the
line separator scalars 0x2028 and 0x2029 become six-character escapes; the rest is
emitted verbatim. -/
def escGo (c : Char) : List Char :=
  if c = '"' then ['\\', '"']
  else if c = '\\' then ['\\', '\\']
  else if c = '\n' then ['\\', 'n']
  else if c = '\r' then ['\\', 'r']
  else if c = '\t' then ['\\', 't']
  else if c.toNat < 32 ∨ c = '<' ∨ c = '>' ∨ c = '&' then
    ['\\', 'u', '0', '0', hexChar (c.toNat / 16), hexChar (c.toNat % 16)]
  else if c.toNat = 0x2028 ∨ c.toNat = 0x2029 then
    ['\\', 'u', '2', '0', '2', hexChar (c.toNat % 16)]
  else [c]

/-- A Go-style JSON string literal: quote, escaped body, quote. -/
def serStr (s : List Char) : List Char :=
  '"' :: (s.flatMap escGo ++ ['"'])

mutual

/-- Serialize a JSON value the way Go's `json.Marshal` renders it: no
whitespace, double-quoted escaped strings, decimal integers. -/
def serV : Jval → List Char
  | .jnull => ['n', 'u', 'l', 'l']
  | .jbool true => ['t', 'r', 'u', 'e']
  | .jbool false => ['f', 'a', 'l', 's', 'e']
  | .jint n => intChars n
  | .jstr s => serStr s
  | .jarr es => '[' :: (serItems es ++ [']'])
  | .jobj ms => '{' :: (serFields ms ++ ['}'])

/-- Comma-separated serialization of array elements. -/
def serItems : List Jval → List Char
  | [] => []
  | [e] => serV e
  | e :: es => serV e ++ ',' :: serItems es

/-- Comma-separated serialization of object members (`"key":value`). -/
def serFields : List (List Char × Jval) → List Char
  | [] => []
  | [(k, v)] => serStr k ++ ':' :: serV v
  | (k, v) :: ms => serStr k ++ ':' :: serV v ++ ',' :: serFields ms

end

mutual

/-- Node count of a JSON value; a fuel bound for the parser. -/
def sizeJ : Jval → Nat
  | .jnull => 1
  | .jbool _ => 1
  | .jint _ => 1
  | .jstr _ => 1
  | .jarr es => 1 + sizeIt es
  | .jobj ms => 1 + sizeFl ms

/-- Fuel bound for parsing a nonempty tail of array elements. -/
def sizeIt : List Jval → Nat
  | [] => 1
  | e :: es => sizeJ e + sizeIt es

/-- Fuel bound for parsing a nonempty tail of object members. -/
def sizeFl : List (List Char × Jval) → Nat
  | [] => 1
  | (_, v) :: ms => sizeJ v + sizeFl ms

end

/-- JSON insignificant whitespace. -/
def isWS (c : Char) : Bool :=
  c = ' ' || c = '\t' || c = '\n' || c = '\r'

/-- Drop leading JSON whitespace. -/
def trimWS (cs : List Char) : List Char := cs.dropWhile isWS

/-- The value of a hexadecimal digit character, if it is one. -/
def hexDigVal (c : Char) : Option Nat :=
  if 48 ≤ c.toNat ∧ c.toNat ≤ 57 then some (c.toNat - 48)
  else if 97 ≤ c.toNat ∧ c.toNat ≤ 102 then some (c.toNat - 87)
  else if 65 ≤ c.toNat ∧ c.toNat ≤ 70 then some (c.toNat - 55)
  else none

/-- The value of a `\uXXXX` escape's four hexadecimal digits. -/
def hexQuad (a b c d : Char) : Option Nat :=
  match hexDigVal a, hexDigVal b, hexDigVal c, hexDigVal d with
  | some va, some vb, some vc, some vd => some (((va * 16 + vb) * 16 + vc) * 16 + vd)
  | _, _, _, _ => none

/-- Single-character JSON escapes recognized after a backslash. -/
def unesc (c : Char) : Option Char :=
  if c = '"' then some '"'
  else if c = '\\' then some '\\'
  else if c = '/' then some '/'
  else if c = 'b' then some (Char.ofNat 8)
  else if c = 'f' then some (Char.ofNat 12)
  else if c = 'n' then some '\n'
  else if c = 'r' then some '\r'
  else if c = 't' then some '\t'
  else none

/-- The Unicode replacement character, which Go substitutes for unpaired
surrogate escapes. -/
def repChar : Char := Char.ofNat 0xFFFD

/-- Read a JSON string body after the opening quote, undoing escapes the way
Go's `encoding/json` does (including surrogate pairs and Go's replacement of
unpaired surrogates); returns the decoded scalars and the input after the
closing quote. -/
def readStr : List Char → Option (List Char × List Char)
  | [] => none
  | '"' :: r => some ([], r)
  | '\\' :: 'u' :: a :: b :: c :: d :: '\\' :: 'u' :: e :: f :: g :: h :: r3 =>
    match hexQuad a b c d with
    | none => none
    | some v =>
      if 0xD800 ≤ v ∧ v < 0xDC00 then
        match hexQuad e f g h with
        | some w =>
          if 0xDC00 ≤ w ∧ w < 0xE000 then
            (readStr r3).map (fun p =>
              (Char.ofNat (0x10000 + (v - 0xD800) * 0x400 + (w - 0xDC00)) :: p.1, p.2))
          else
            (readStr ('\\' :: 'u' :: e :: f :: g :: h :: r3)).map
              (fun p => (repChar :: p.1, p.2))
        | none =>
          (readStr ('\\' :: 'u' :: e :: f :: g :: h :: r3)).map
            (fun p => (repChar :: p.1, p.2))
      else if 0xDC00 ≤ v ∧ v < 0xE000 then
        (readStr ('\\' :: 'u' :: e :: f :: g :: h :: r3)).map
          (fun p => (repChar :: p.1, p.2))
      else
        (readStr ('\\' :: 'u' :: e :: f :: g :: h :: r3)).map
          (fun p => (Char.ofNat v :: p.1, p.2))
  | '\\' :: 'u' :: a :: b :: c :: d :: r2 =>
    match hexQuad a b c d with
    | none => none
    | some v =>
      if 0xD800 ≤ v ∧ v < 0xE000 then
        (readStr r2).map (fun p => (repChar :: p.1, p.2))
      else
        (readStr r2).map (fun p => (Char.ofNat v :: p.1, p.2))
  | '\\' :: e :: r2 =>
    match unesc e with
    | some u => (readStr r2).map (fun p => (u :: p.1, p.2))
    | none => none
  | ['\\'] => none
  | c :: r =>
    if c.toNat < 32 then none
    else (readStr r).map (fun p => (c :: p.1, p.2))
termination_by cs => cs.length
decreasing_by all_goals (simp [List.length_cons]; try omega)

/-- Read a decimal natural at the head of the input.  Fractions and exponents
are outside the model's integer fragment and rejected. -/
def readNat (cs : List Char) : Option (Nat × List Char) :=
  let ds := cs.takeWhile Char.isDigit
  let r := cs.dropWhile Char.isDigit
  if ds = [] then none
  else
    match r with
    | c :: _ => if c = '.' ∨ c = 'e' ∨ c = 'E' then none else some (charsVal ds, r)
    | [] => some (charsVal ds, [])

/-- Whether a remainder cannot extend a just-parsed number: empty, or
starting with a character that is neither a digit nor `.`, `e`, `E`.  Every
position a serialized value is followed by (separator, closer, end of
input) qualifies. -/
def tailOk (r : List Char) : Bool :=
  match r with
  | [] => true
  | c :: _ => !(c.isDigit || c = '.' || c = 'e' || c = 'E')

/-- Require the given literal characters at the head of the input and
return the remainder. -/
def expectL (lit cs : List Char) : Option (List Char) :=
  match lit, cs with
  | [], rest => some rest
  | l :: ls, c :: rest => if c = l then expectL ls rest else none
  | _ :: _, [] => none

mutual

/-- Fueled JSON value parser over scalars, following Go's grammar (leading
whitespace allowed, keywords `null`/`true`/`false`, strings, arrays,
objects, integers; no trailing commas). -/
def parseV : Nat → List Char → Option (Jval × List Char)
  | 0, _ => none
  | fu + 1, cs =>
    match trimWS cs with
    | [] => none
    | c :: r =>
      if c = 'n' then (expectL ['u', 'l', 'l'] r).map (fun r2 => (.jnull, r2))
      else if c = 't' then (expectL ['r', 'u', 'e'] r).map (fun r2 => (.jbool true, r2))
      else if c = 'f' then (expectL ['a', 'l', 's', 'e'] r).map (fun r2 => (.jbool false, r2))
      else if c = '"' then (readStr r).map (fun p => (.jstr p.1, p.2))
      else if c = '[' then
        match trimWS r with
        | [] => none
        | c2 :: r2 =>
          if c2 = ']' then some (.jarr [], r2)
          else (parseItems fu (c2 :: r2)).map (fun p => (.jarr p.1, p.2))
      else if c = '{' then
        match trimWS r with
        | [] => none
        | c2 :: r2 =>
          if c2 = '}' then some (.jobj [], r2)
          else (parseFields fu (c2 :: r2)).map (fun p => (.jobj p.1, p.2))
      else if c = '-' then (readNat r).map (fun p => (.jint (-(p.1 : Int)), p.2))
      else if c.isDigit then (readNat (c :: r)).map (fun p => (.jint (p.1 : Int), p.2))
      else none

/-- Parse one or more comma-separated array elements and the closing `]`. -/
def parseItems : Nat → List Char → Option (List Jval × List Char)
  | 0, _ => none
  | fu + 1, cs =>
    match parseV fu cs with
    | none => none
    | some (v, r) =>
      match trimWS r with
      | [] => none
      | c :: r2 =>
        if c = ',' then (parseItems fu r2).map (fun p => (v :: p.1, p.2))
        else if c = ']' then some ([v], r2)
        else none

/-- Parse one or more comma-separated object members and the closing `}`. -/
def parseFields : Nat → List Char → Option (List (List Char × Jval) × List Char)
  | 0, _ => none
  | fu + 1, cs =>
    match trimWS cs with
    | [] => none
    | c :: r =>
      if c = '"' then
        match readStr r with
        | none => none
        | some (k, r1) =>
          match trimWS r1 with
          | [] => none
          | c2 :: r2 =>
            if c2 = ':' then
              match parseV fu r2 with
              | none => none
              | some (v, r3) =>
                match trimWS r3 with
                | [] => none
                | c3 :: r4 =>
                  if c3 = ',' then (parseFields fu r4).map (fun p => ((k, v) :: p.1, p.2))
                  else if c3 = '}' then some ([(k, v)], r4)
                  else none
            else none
      else none

end

/-- Parse a complete JSON document: one value, then only whitespace, as Go's
`json.Unmarshal` requires. -/
def jsonParseDoc (cs : List Char) : Option Jval :=
  match parseV (cs.length + 1) cs with
  | some (v, r) => if trimWS r = [] then some v else none
  | none => none

/-! ## UTF-8, connecting scalar text to codec bytes -/

/-- UTF-8 encoding of one Unicode scalar as bytes. -/
def utf8Enc (c : Char) : GoBytes :=
  if c.toNat < 0x80 then [c.toNat]
  else if c.toNat < 0x800 then [0xC0 + c.toNat / 64, 0x80 + c.toNat % 64]
  else if c.toNat < 0x10000 then
    [0xE0 + c.toNat / 4096, 0x80 + c.toNat / 64 % 64, 0x80 + c.toNat % 64]
  else
    [0xF0 + c.toNat / 0x40000, 0x80 + c.toNat / 4096 % 64,
     0x80 + c.toNat / 64 % 64, 0x80 + c.toNat % 64]

/-- UTF-8 encoding of scalar text. -/
def utf8EncAll (cs : List Char) : GoBytes := cs.flatMap utf8Enc

/-- Whether a byte is a UTF-8 continuation byte. -/
def isCont (b : Nat) : Bool := 0x80 ≤ b && b < 0xC0

/-- The scalar value of a three-byte UTF-8 sequence. -/
def u3val (b b1 b2 : Nat) : Nat := (b - 0xE0) * 4096 + (b1 - 0x80) * 64 + (b2 - 0x80)

/-- Validity of a three-byte UTF-8 sequence (continuations, no overlong
encoding, no surrogate). -/
def u3ok (b b1 b2 : Nat) : Bool :=
  isCont b1 && isCont b2 && decide (0x800 ≤ u3val b b1 b2)
    && !decide (0xD800 ≤ u3val b b1 b2 ∧ u3val b b1 b2 < 0xE000)

/-- The scalar value of a four-byte UTF-8 sequence. -/
def u4val (b b1 b2 b3 : Nat) : Nat :=
  (b - 0xF0) * 0x40000 + (b1 - 0x80) * 4096 + (b2 - 0x80) * 64 + (b3 - 0x80)

/-- Validity of a four-byte UTF-8 sequence (continuations, no overlong
encoding, in Unicode range). -/
def u4ok (b b1 b2 b3 : Nat) : Bool :=
  isCont b1 && isCont b2 && isCont b3 && decide (0x10000 ≤ u4val b b1 b2 b3)
    && decide (u4val b b1 b2 b3 < 0x110000)

/-! Strict UTF-8 decoding of bytes to Unicode scalars (rejecting truncated,
overlong and surrogate encodings), with one helper per sequence length.  Go
replaces invalid sequences instead of rejecting them; the strict model
agrees with Go on all valid input, which is all the round-trip law
exercises. -/

mutual

/-- Decode UTF-8 bytes to scalars. -/
def utf8Dec : GoBytes → Option (List Char)
  | [] => some []
  | b :: r =>
    if b < 0x80 then (utf8Dec r).map (Char.ofNat b :: ·)
    else if b < 0xC2 then none
    else if b < 0xE0 then u2dec b r
    else if b < 0xF0 then u3dec b r
    else if b < 0xF5 then u4dec b r
    else none
termination_by bs => bs.length

/-- Decode the continuation of a two-byte sequence. -/
def u2dec (b : Nat) : GoBytes → Option (List Char)
  | b1 :: r1 =>
    if isCont b1 then (utf8Dec r1).map (Char.ofNat ((b - 0xC0) * 64 + (b1 - 0x80)) :: ·)
    else none
  | [] => none
termination_by bs => bs.length

/-- Decode the continuation of a three-byte sequence. -/
def u3dec (b : Nat) : GoBytes → Option (List Char)
  | b1 :: b2 :: r2 =>
    if u3ok b b1 b2 then (utf8Dec r2).map (Char.ofNat (u3val b b1 b2) :: ·)
    else none
  | _ => none
termination_by bs => bs.length

/-- Decode the continuation of a four-byte sequence. -/
def u4dec (b : Nat) : GoBytes → Option (List Char)
  | b1 :: b2 :: b3 :: r3 =>
    if u4ok b b1 b2 b3 then (utf8Dec r3).map (Char.ofNat (u4val b b1 b2 b3) :: ·)
    else none
  | _ => none
termination_by bs => bs.length

end

/-! ## Go values and the codec interface (`codec/codec.go`) -/

/-- The dynamic Go values the claims exercise: byte slices, strings (raw
byte sequences) and JSON-representable values.  Values implementing the
binary/proto/msgpack/greenpack interfaces are outside this universe, so
those codecs reject every `GoVal`, exactly as the source rejects values not
implementing their required interfaces. -/
inductive GoVal : Type where
  | vbytes : GoBytes → GoVal
  | vstr : GoBytes → GoVal
  | vjson : Jval → GoVal

/-- The static type of an unmarshal target pointer. -/
inductive GoType : Type where
  | tbytes : GoType
  | tstr : GoType
  | tjson : GoType
deriving DecidableEq

/-- The Go type of a value, for "a target of v's type". -/
def goTypeOf : GoVal → GoType
  | .vbytes _ => .tbytes
  | .vstr _ => .tstr
  | .vjson _ => .tjson

/-- `codec.Codec`: an interface for encoding and decoding native types into
bytes.  `unmarshal` takes the target's type in place of the target pointer
and returns the value written through it. -/
structure Codec : Type where
  marshal : GoVal → Except String GoBytes
  unmarshal : GoBytes → GoType → Except String GoVal

/-- `bytesCodec`: identity on byte slices, rejecting other values. -/
def bytesCodec : Codec where
  marshal v :=
    match v with
    | .vbytes b => .ok b
    | _ => .error "byte slice required"
  unmarshal b t :=
    match t with
    | .tbytes => .ok (.vbytes b)
    | _ => .error "pointer to []byte required"

/-- `stringCodec`: `[]byte(s)` and `string(b)` are byte-for-byte copies. -/
def stringCodec : Codec where
  marshal v :=
    match v with
    | .vstr s => .ok s
    | _ => .error "string required"
  unmarshal b t :=
    match t with
    | .tstr => .ok (.vstr b)
    | _ => .error "pointer to string required"

/-- `jsonCodec`: delegates to `encoding/json`, modelled by the serializer and
parser over `Jval` with UTF-8 bytes on the wire. -/
def jsonCodec : Codec where
  marshal v :=
    match v with
    | .vjson j => .ok (utf8EncAll (serV j))
    | _ => .error "json: unsupported value"
  unmarshal b t :=
    match t with
    | .tjson =>
      match (utf8Dec b).bind jsonParseDoc with
      | some j => .ok (.vjson j)
      | none => .error "invalid JSON"
    | _ => .error "json: unsupported target"

/-- `binaryCodec`: requires `encoding.BinaryMarshaler`, which no `GoVal`
implements. -/
def binaryCodec : Codec where
  marshal _ := .error "encoding.BinaryMarshaler required"
  unmarshal _ _ := .error "encoding.BinaryUnmarshaler required"

/-- `protoCodec`: requires `proto.Message`, which no `GoVal` implements. -/
def protoCodec : Codec where
  marshal _ := .error "proto message required"
  unmarshal _ _ := .error "proto.Message required"

/-- `msgpackCodec`: requires `msgp.Encodable`, which no `GoVal` implements. -/
def msgpackCodec : Codec where
  marshal _ := .error "msgpack encodable required"
  unmarshal _ _ := .error "msgpack decodable required"

/-- `greenpackCodec`: requires `gmsgp.Encodable`, which no `GoVal`
implements. -/
def greenpackCodec : Codec where
  marshal _ := .error "greenpack encodable required"
  unmarshal _ _ := .error "greenpack decodable required"

/-- A codec registry; the `codecs` map modelled as an association list with
the most recent registration first. -/
abbrev Registry := List (String × Codec)

/-- The package-level `codecs` map with the built-in entries. -/
def builtinCodecs : Registry :=
  [("bytes", bytesCodec),
   ("binary", binaryCodec),
   ("string", stringCodec),
   ("json", jsonCodec),
   ("proto", protoCodec),
   ("msgpack", msgpackCodec),
   ("greenpack", greenpackCodec)]

/-- `codec.Get`: look up a codec by name. -/
def codecGet (reg : Registry) (name : String) : Option Codec :=
  reg.lookup name

/-- `codec.Register`: add or overwrite an entry (later registrations shadow
earlier ones). -/
def codecRegister (reg : Registry) (name : String) (c : Codec) : Registry :=
  (name, c) :: reg

/-! ## The protobuf wire layer

Modelled from the spec: the outer structural wire format is produced by the
external `golang/protobuf` library.  `PWire α` represents a Go byte string
that either is the encoding of a protobuf message of type `α` or is not a
valid protobuf encoding at all (`junk`); encoding is injective and decoding
inverts it, which is the library's contract.  Proto3 elision of
default-valued fields is not modelled (struct contents are carried
verbatim). -/
inductive PWire (α : Type) : Type where
  | ok : α → PWire α
  | junk : Nat → PWire α

/-- `proto.Marshal` for a message value. -/
def protoMarshal {α : Type} (a : α) : PWire α := .ok a

/-- `proto.Unmarshal` of a possibly-nil byte slice into a zeroed message:
nil decodes to the zero message, junk fails. -/
def protoUnmarshal {α : Type} (zero : α) : Option (PWire α) → Except String α
  | none => .ok zero
  | some (.ok a) => .ok a
  | some (.junk _) => .error "proto: cannot parse invalid wire-format data"

/-! ## The envelope model (`types.go`) -/

/-- `pb.Data`: the inner wire record wrapping an encoded payload with its
encoding name and optional schema. -/
structure PbData : Type where
  schema : String
  encoding : String
  data : GoBytes

/-- `pb.Message`: the outer wire record of a `Message` envelope.  The `data`
and `meta` fields are Go byte slices holding a `pb.Data` encoding, or nil. -/
structure PbMessage : Type where
  id : String
  typ : String
  time : Int
  data : Option (PWire PbData)
  meta : Option (PWire PbData)
  correlationId : String
  causalId : String

/-- `Data` encapsulates a value with a known encoding scheme: either an
unencoded native `value` or cached wire `bytes` (set by `Unmarshal`). -/
structure Data : Type where
  Encoding : String
  Schema : String
  value : Option GoVal
  bytes : Option GoBytes

/-- The zero `Data` (a fresh `var data Data`). -/
def emptyData : Data :=
  { Encoding := "", Schema := "", value := none, bytes := none }

/-- `Data.Set`: store a new value and clear any cached bytes. -/
def Data.set (d : Data) (v : GoVal) : Data :=
  { d with value := some v, bytes := none }

/-- `Data.Marshal`: nothing to encode yields a nil payload; an empty encoding
with content is an error; cached bytes are emitted as-is; otherwise the
registered codec encodes the value.  Returns the possibly-nil proto bytes of
the `pb.Data` record. -/
def Data.marshal (reg : Registry) (d : Data) : Except String (Option (PWire PbData)) :=
  match d.bytes, d.value with
  | none, none => .ok none
  | some b, _ =>
    if d.Encoding = "" then .error "no encoding specified"
    else .ok (some (protoMarshal { schema := d.Schema, encoding := d.Encoding, data := b }))
  | none, some v =>
    if d.Encoding = "" then .error "no encoding specified"
    else
      match codecGet reg d.Encoding with
      | none => .error ("no codec for " ++ d.Encoding)
      | some c =>
        match c.marshal v with
        | .error e => .error e
        | .ok b => .ok (some (protoMarshal { schema := d.Schema, encoding := d.Encoding, data := b }))

/-- `Data.Unmarshal`: decode the `pb.Data` record and store its schema,
encoding and payload bytes for later decoding; the receiver's `value` field
is not assigned. -/
def Data.unmarshal (d : Data) (b : Option (PWire PbData)) : Except String Data :=
  match protoUnmarshal { schema := "", encoding := "", data := [] } b with
  | .error e => .error e
  | .ok x => .ok { d with Schema := x.schema, Encoding := x.encoding, bytes := some x.data }

/-- `Data.Decode`: decode the cached bytes into a target of the given type
via the registered codec.  The receiver is returned unchanged — the source
assigns no field of `d`. -/
def Data.decode (reg : Registry) (d : Data) (t : GoType) : Except String GoVal × Data :=
  (match d.bytes with
   | none => .error "no data to decode"
   | some b =>
     match codecGet reg d.Encoding with
     | none => .error ("no codec for " ++ d.Encoding)
     | some c => c.unmarshal b t, d)

/-- The nanosecond offset of Go's zero `time.Time` (January 1, year 1 UTC)
from the Unix epoch; `t.IsZero()` is `t = goZeroTimeNanos` in the model. -/
def goZeroTimeNanos : Int := -62135596800000000000

/-- Process-wide generator state: `GenId`/`NewID`, the overridable package
variable for message ID generation, and `nuid.Next`, the external NATS
generator, each modelled by the string it returns at the call under
consideration. -/
structure Globals : Type where
  genId : String
  nuidNext : String

/-- Alias for `Data`, usable inside structures that also have a field
named `Data`. -/
abbrev DataT := Data

/-- `Message`: the general envelope type (`types.go`, the version with
correlation and causality fields; the other version's `Marshal` sets the
same `ID`/`Time` defaults inline). -/
structure Message : Type where
  ID : String
  Typ : String
  Time : Int
  Data : Option DataT
  Meta : Option DataT
  CorrelationID : String
  CausalID : String
  Topic : String
  AckTime : Int

/-- The zero `Message` (a fresh `var m Message`). -/
def emptyMessage : Message :=
  { ID := "", Typ := "", Time := goZeroTimeNanos, Data := none, Meta := none,
    CorrelationID := "", CausalID := "", Topic := "", AckTime := goZeroTimeNanos }

/-- `Message.setDefaults`: generate the ID if unset and stamp the current
time if unset.  `now` is the instant `time.Now()` returns at this call. -/
def Message.setDefaults (g : Globals) (now : Int) (m : Message) : Message :=
  { m with
    ID := if m.ID = "" then g.genId else m.ID,
    Time := if m.Time = goZeroTimeNanos then now else m.Time }

/-- Marshal an optional `Data` field the way `Message.Marshal` does: a nil
field stays nil, otherwise `Data.Marshal` runs (and may itself yield nil). -/
def marshalOptData (reg : Registry) : Option Data → Except String (Option (PWire PbData))
  | none => .ok none
  | some d => d.marshal reg

/-- `Message.Marshal`: set defaults, marshal `data`/`meta`, emit the
`pb.Message` wire record.  Returns the wire bytes (or the error) together
with the mutated receiver; note the defaults are assigned before any
marshaling error can return. -/
def Message.marshal (reg : Registry) (g : Globals) (now : Int) (m : Message) :
    Except String (PWire PbMessage) × Message :=
  match marshalOptData reg (m.setDefaults g now).Data with
  | .error e => (.error e, m.setDefaults g now)
  | .ok db =>
    match marshalOptData reg (m.setDefaults g now).Meta with
    | .error e => (.error e, m.setDefaults g now)
    | .ok mb =>
      (.ok (protoMarshal
        { id := (m.setDefaults g now).ID, typ := (m.setDefaults g now).Typ,
          time := (m.setDefaults g now).Time, data := db, meta := mb,
          correlationId := (m.setDefaults g now).CorrelationID,
          causalId := (m.setDefaults g now).CausalID }), m.setDefaults g now)

/-- `Message.Unmarshal`: decode the wire record, reconstruct `data`/`meta`
as `Data` values holding raw bytes (when the wire fields are non-nil), and
copy the scalar fields.  `time.Unix(0, x.Time)` is the identity on the
nanosecond model. -/
def Message.unmarshal (m : Message) (b : PWire PbMessage) : Except String Message :=
  match b with
  | .junk _ => .error "proto: cannot parse invalid wire-format data"
  | .ok x =>
    match (match x.data with
           | none => .ok none
           | some w => (emptyData.unmarshal (some w)).map some :
        Except String (Option DataT)) with
    | .error e => .error e
    | .ok dataF =>
      match (match x.meta with
             | none => .ok none
             | some w => (emptyData.unmarshal (some w)).map some :
          Except String (Option DataT)) with
      | .error e => .error e
      | .ok metaF =>
        .ok { m with
          ID := x.id, Time := x.time, Typ := x.typ,
          Data := (match dataF with | none => m.Data | some d => some d),
          Meta := (match metaF with | none => m.Meta | some d => some d),
          CorrelationID := x.correlationId, CausalID := x.causalId }

/-! ## The STAN connection (`stan.go`, and the older `stanConn` in
`encode.go`) -/

/-- `pb.Event`: the wire record `stanConn.Publish` emits (the fields the
publish path assigns). -/
structure PbEvent : Type where
  id : String
  typ : String
  cause : String
  client : String
  data : Option GoBytes
  encoding : String

/-- An `Encodable` value as `stanConn.Publish` consumes it: its encoding
name (`Type()`) and the result of `Encode()` (a possibly-nil byte slice, or
an error). -/
structure EncVal : Type where
  typeName : String
  encodeRes : Except String (Option GoBytes)

/-- The event passed to `stanConn.Publish` (the fields the publish path
reads). -/
structure EventOut : Type where
  typ : String
  cause : String
  data : Option EncVal

/-- `stanConn.Publish`: encode the event data (a nil `Data` becomes encoding
`"nil"` with nil payload bytes), generate the event ID with `nuid.Next()`,
and emit the `pb.Event` wire record.  Returns the assigned ID and the
published record. -/
def stanPublish (g : Globals) (client : String) (evt : EventOut) :
    Except String (String × PWire PbEvent) :=
  match (match evt.data with
         | none => .ok (none, "nil")
         | some d =>
           match d.encodeRes with
           | .error e => .error e
           | .ok b => .ok (b, d.typeName) : Except String (Option GoBytes × String)) with
  | .error e => .error e
  | .ok (datab, encoding) =>
    let id := g.nuidNext
    .ok (id, protoMarshal
      { id := id, typ := evt.typ, cause := evt.cause, client := client,
        data := datab, encoding := encoding })

/-- What the `stan.go` message handler did with one raw message: the log
lines it printed, whether the user handler ran, whether the message was
acknowledged, and whether anything was closed or cancelled (nothing on this
path ever is; the panic-recovery path is outside the model). -/
structure OutcomeV1 : Type where
  logs : List String
  invoked : Bool
  acked : Bool
  halted : Bool

/-- The `stan.go` `msgHandler` on one raw backend message, given the results
the user handler and `msg.Ack()` would return: a failed proto unmarshal is
logged and the handler returns — the user handler is not invoked, nothing is
acknowledged, and the subscription is left running; a handler error is
logged without acking; otherwise the message is acked (a failed ack is
logged). -/
def stanMsgHandlerV1 (client : String) (handleRes : Option String)
    (ackRes : Option String) (raw : PWire PbEvent) : OutcomeV1 :=
  match raw with
  | .junk _ =>
    { logs := ["[" ++ client ++ "] proto unmarshal failed: proto: cannot parse invalid wire-format data"],
      invoked := false, acked := false, halted := false }
  | .ok _ =>
    match handleRes with
    | some e =>
      { logs := ["[" ++ client ++ "] handler error: " ++ e],
        invoked := true, acked := false, halted := false }
    | none =>
      match ackRes with
      | some e =>
        { logs := ["[" ++ client ++ "] ack failed: " ++ e],
          invoked := true, acked := false, halted := false }
      | none => { logs := [], invoked := true, acked := true, halted := false }

/-- What the older `encode.go` message handler did with one raw message:
the errors pushed onto the connection's error channel, whether the
connection context was cancelled, whether the user handler ran, and whether
the message was acknowledged. -/
structure OutcomeV2 : Type where
  errsSent : List String
  cancelled : Bool
  invoked : Bool
  acked : Bool

/-- The older `encode.go` `msgHandler` on one raw backend message: a failed
proto unmarshal sends the error on the connection's error channel and
cancels the connection context (halting the connection and its
subscriptions) without invoking the user handler; handler and ack errors do
the same after their stage. -/
def stanMsgHandlerV2 (handleRes : Option String) (ackRes : Option String)
    (raw : PWire PbEvent) : OutcomeV2 :=
  match raw with
  | .junk _ =>
    { errsSent := ["proto: cannot parse invalid wire-format data"],
      cancelled := true, invoked := false, acked := false }
  | .ok _ =>
    match handleRes with
    | some e => { errsSent := [e], cancelled := true, invoked := true, acked := false }
    | none =>
      match ackRes with
      | some e => { errsSent := [e], cancelled := true, invoked := true, acked := false }
      | none => { errsSent := [], cancelled := false, invoked := true, acked := true }

/-- The subscription options `stanConn.Subscribe` reads (`conn.go`). -/
structure SubscriptionOptions : Type where
  Name : String
  Backfill : Bool
  Durable : Bool
  Reset : Bool
  Serial : Bool
  Timeout : Int

/-- The backend subscription options passed to `stan.QueueSubscribe`. -/
inductive StanSubOption : Type where
  | startAt : Bool → StanSubOption
  | ackWait : Int → StanSubOption
  | manualAck : StanSubOption
  | maxInflight : Nat → StanSubOption
  | durableName : String → StanSubOption
deriving DecidableEq

/-- The option list `stanConn.Subscribe` assembles: start position, ack
wait, manual acks, then `MaxInflight(1)` exactly when `Serial` is set, and
the durable name exactly when `Durable` is set. -/
def stanSubOpts (opts : SubscriptionOptions) (durableName : String) : List StanSubOption :=
  [StanSubOption.startAt opts.Backfill,
   StanSubOption.ackWait opts.Timeout,
   StanSubOption.manualAck]
  ++ (if opts.Serial then [StanSubOption.maxInflight 1] else [])
  ++ (if opts.Durable then [StanSubOption.durableName durableName] else [])

/-! ## Serial delivery traces

Modelled from the spec (§6): the backend delivers from ordered durable
storage; `MaxInflight(1)` instructs it to keep at most one unacknowledged
message in flight.  A delivery schedule assigns each message index the time
its handler invocation starts (`s`) and the time it is acknowledged (`f`). -/

/-- Message `i` is in flight at time `t`: its handler invocation has started
and it has not yet been acknowledged. -/
def inflightAt (s f : Nat → Nat) (i t : Nat) : Prop := s i ≤ t ∧ t < f i

/-! ## Theorems -/

/-- `Message.Marshal` always leaves the receiver in its post-`setDefaults`
state, whether or not marshaling succeeds. -/
theorem Message.marshal_snd (reg : Registry) (g : Globals) (now : Int) (m : Message) :
    (m.marshal reg g now).2 = m.setDefaults g now := by
  unfold Message.marshal
  cases marshalOptData reg (m.setDefaults g now).Data with
  | error e => rfl
  | ok db =>
    cases marshalOptData reg (m.setDefaults g now).Meta with
    | error e => rfl
    | ok mb => rfl

/-- A successful `Data.Marshal` yields either a nil payload or well-formed
proto bytes, never junk. -/
theorem Data.marshal_shape (reg : Registry) (d : Data) (o : Option (PWire PbData))
    (h : d.marshal reg = .ok o) :
    o = none ∨ ∃ pbd : PbData, o = some (.ok pbd) := by
  unfold Data.marshal at h
  rcases hb : d.bytes with _ | b <;> rcases hv : d.value with _ | v <;>
      simp only [hb, hv] at h
  · injection h with h2
    exact Or.inl h2.symm
  · split at h
    · simp at h
    · rcases hg : codecGet reg d.Encoding with _ | c <;> rw [hg] at h <;> dsimp only at h
      · simp at h
      · rcases hm : c.marshal v with e | bb <;> rw [hm] at h
        · simp at h
        · injection h with h2
          exact Or.inr ⟨_, h2.symm⟩
  · split at h
    · simp at h
    · injection h with h2
      exact Or.inr ⟨_, h2.symm⟩
  · split at h
    · simp at h
    · injection h with h2
      exact Or.inr ⟨_, h2.symm⟩

/-- A successful `Message.Marshal` field-wise: the wire record carries the
post-defaults id, type and time. -/
theorem Message.marshal_ok (reg : Registry) (g : Globals) (now : Int) (m : Message)
    (w : PWire PbMessage) (m1 : Message) (h : m.marshal reg g now = (.ok w, m1)) :
    ∃ db mb,
      marshalOptData reg (m.setDefaults g now).Data = .ok db ∧
      marshalOptData reg (m.setDefaults g now).Meta = .ok mb ∧
      w = .ok { id := m1.ID, typ := m1.Typ, time := m1.Time, data := db, meta := mb,
                correlationId := m1.CorrelationID, causalId := m1.CausalID } ∧
      m1 = m.setDefaults g now := by
  have hsnd : m1 = m.setDefaults g now := by
    have := Message.marshal_snd reg g now m
    rw [h] at this
    exact this
  unfold Message.marshal at h
  rcases hd : marshalOptData reg (m.setDefaults g now).Data with e | db <;>
    rw [hd] at h <;> dsimp only at h
  · exact absurd (congrArg Prod.fst h) (by simp)
  rcases hm : marshalOptData reg (m.setDefaults g now).Meta with e | mb <;>
    rw [hm] at h <;> dsimp only at h
  · exact absurd (congrArg Prod.fst h) (by simp)
  refine ⟨db, mb, rfl, rfl, ?_, hsnd⟩
  have hw := congrArg Prod.fst h
  dsimp only at hw
  injection hw with hw
  rw [← hw, hsnd]
  rfl

/-- Shape of a successfully marshaled optional `Data` field. -/
theorem marshalOptData_shape (reg : Registry) (od : Option Data)
    (o : Option (PWire PbData)) (h : marshalOptData reg od = .ok o) :
    o = none ∨ ∃ pbd : PbData, o = some (.ok pbd) := by
  cases od with
  | none =>
    injection h with h2
    exact Or.inl h2.symm
  | some d => exact Data.marshal_shape reg d o h

/-- C4: for every envelope that marshals successfully, unmarshaling the
marshaled wire bytes into a fresh envelope reproduces the id, type, and
time (nanosecond wire resolution) of the envelope as marshaled. -/
theorem claim4_roundtrip_id_type_time (reg : Registry) (g : Globals) (now : Int)
    (m : Message) (w : PWire PbMessage) (m1 : Message)
    (h : m.marshal reg g now = (.ok w, m1)) :
    (Message.unmarshal emptyMessage w).map (fun m2 => (m2.ID, m2.Typ, m2.Time))
      = .ok (m1.ID, m1.Typ, m1.Time) := by
  obtain ⟨db, mb, hd, hm, hw, _⟩ := Message.marshal_ok reg g now m w m1 h
  subst hw
  rcases marshalOptData_shape reg _ db hd with hdb | ⟨pbd, hdb⟩ <;>
    rcases marshalOptData_shape reg _ mb hm with hmb | ⟨pbm, hmb⟩ <;>
      subst hdb <;> subst hmb <;>
        simp [Message.unmarshal, Data.unmarshal, protoUnmarshal, emptyData, Except.map]

/-- C4 witness: a concrete envelope round-trips its id, type and time. -/
theorem claim4_witness :
    Message.marshal builtinCodecs ⟨"gid", "nn"⟩ 5 { emptyMessage with Typ := "t" } =
      (.ok (.ok { id := "gid", typ := "t", time := 5, data := none, meta := none,
                  correlationId := "", causalId := "" }),
       { emptyMessage with ID := "gid", Typ := "t", Time := 5 }) ∧
    (Message.unmarshal emptyMessage
        (.ok { id := "gid", typ := "t", time := 5, data := none, meta := none,
               correlationId := "", causalId := "" })).map
      (fun m2 => (m2.ID, m2.Typ, m2.Time)) = .ok ("gid", "t", 5) :=
  ⟨rfl, claim4_roundtrip_id_type_time builtinCodecs ⟨"gid", "nn"⟩ 5
    { emptyMessage with Typ := "t" } _ _ rfl⟩

/-- C3: an envelope with empty id and zero time gets, on a successful
`Marshal`, a non-empty id (the generator's output) and a non-zero time, and
a second `Marshal` of the resulting envelope never regenerates the id. -/
theorem claim3_marshal_defaults (reg : Registry) (g : Globals) (now : Int)
    (m : Message) (w : PWire PbMessage) (m1 : Message)
    (hid : m.ID = "") (ht : m.Time = goZeroTimeNanos)
    (hg : g.genId ≠ "") (hn : now ≠ goZeroTimeNanos)
    (h : m.marshal reg g now = (.ok w, m1)) :
    m1.ID = g.genId ∧ m1.ID ≠ "" ∧ m1.Time = now ∧ m1.Time ≠ goZeroTimeNanos ∧
    ∀ (g2 : Globals) (now2 : Int), ((m1.marshal reg g2 now2).2).ID = m1.ID := by
  have hsnd : m1 = m.setDefaults g now := by
    have h2 := Message.marshal_snd reg g now m
    rw [h] at h2
    exact h2
  have hID : m1.ID = g.genId := by
    rw [hsnd]
    simp [Message.setDefaults, hid]
  have hTime : m1.Time = now := by
    rw [hsnd]
    simp [Message.setDefaults, ht]
  refine ⟨hID, by rw [hID]; exact hg, hTime, by rw [hTime]; exact hn, ?_⟩
  intro g2 now2
  rw [Message.marshal_snd]
  simp [Message.setDefaults, hID, hg]

/-- C3 witness: a concrete envelope with no id and zero time. -/
theorem claim3_witness :
    emptyMessage.ID = "" ∧ emptyMessage.Time = goZeroTimeNanos ∧
    ("id-1" : String) ≠ "" ∧ (42 : Int) ≠ goZeroTimeNanos ∧
    (({ emptyMessage with ID := "id-1", Time := 42 } : Message).ID = "id-1" ∧
     ({ emptyMessage with ID := "id-1", Time := 42 } : Message).ID ≠ "" ∧
     ({ emptyMessage with ID := "id-1", Time := 42 } : Message).Time = 42 ∧
     ({ emptyMessage with ID := "id-1", Time := 42 } : Message).Time ≠ goZeroTimeNanos ∧
     ∀ (g2 : Globals) (now2 : Int),
       ((Message.marshal builtinCodecs g2 now2
          { emptyMessage with ID := "id-1", Time := 42 }).2).ID = "id-1") :=
  ⟨rfl, rfl, by decide, by decide,
   claim3_marshal_defaults builtinCodecs ⟨"id-1", "nn"⟩ 42 emptyMessage
     (.ok { id := "id-1", typ := "", time := 42, data := none, meta := none,
            correlationId := "", causalId := "" })
     { emptyMessage with ID := "id-1", Time := 42 }
     rfl rfl (by decide) (by decide) rfl⟩

/-- C5: `Data.Decode` fails with "no data to decode" when no bytes were
received, fails with "no codec for <name>" (without panicking — it is a
total function into `Except`) when the encoding tag is unregistered, and
otherwise decodes the cached bytes into the target via the registered
codec. -/
theorem claim5_decode_errors (reg : Registry) (d : Data) (t : GoType) :
    (d.bytes = none → (d.decode reg t).1 = .error "no data to decode") ∧
    (∀ b, d.bytes = some b → codecGet reg d.Encoding = none →
      (d.decode reg t).1 = .error ("no codec for " ++ d.Encoding)) ∧
    (∀ b c, d.bytes = some b → codecGet reg d.Encoding = some c →
      (d.decode reg t).1 = c.unmarshal b t) := by
  refine ⟨fun hb => ?_, fun b hb hg => ?_, fun b c hb hg => ?_⟩ <;>
    simp [Data.decode, hb]
  · rw [hg]
  · rw [hg]

/-- C5 witness: the three decode outcomes at concrete data. -/
theorem claim5_witness :
    (Data.decode builtinCodecs emptyData .tjson).1 = .error "no data to decode" ∧
    (Data.decode builtinCodecs
      { Encoding := "capnproto", Schema := "", value := none, bytes := some [1] }
      .tjson).1 = .error ("no codec for " ++ "capnproto") ∧
    (Data.decode builtinCodecs
      { Encoding := "bytes", Schema := "", value := none, bytes := some [1, 2] }
      .tbytes).1 = bytesCodec.unmarshal [1, 2] .tbytes :=
  ⟨(claim5_decode_errors builtinCodecs emptyData .tjson).1 rfl,
   (claim5_decode_errors builtinCodecs
      { Encoding := "capnproto", Schema := "", value := none, bytes := some [1] }
      .tjson).2.1 [1] rfl rfl,
   (claim5_decode_errors builtinCodecs
      { Encoding := "bytes", Schema := "", value := none, bytes := some [1, 2] }
      .tbytes).2.2 [1, 2] bytesCodec rfl rfl⟩

/-- C7: a `Data` with no value and no bytes marshals to a nil payload with
no error, and `Publish` of an event with nil data stamps the wire record
with encoding `"nil"` and nil payload bytes. -/
theorem claim7_nil_data (reg : Registry) (d : Data) (g : Globals)
    (client : String) (evt : EventOut)
    (hd : d.value = none) (hb : d.bytes = none) (he : evt.data = none) :
    d.marshal reg = .ok none ∧
    stanPublish g client evt =
      .ok (g.nuidNext, .ok
        { id := g.nuidNext, typ := evt.typ, cause := evt.cause, client := client,
          data := none, encoding := "nil" }) := by
  constructor
  · unfold Data.marshal
    rw [hd, hb]
  · unfold stanPublish
    rw [he]
    rfl

/-- C7 witness: concrete empty data and a concrete nil-data publish. -/
theorem claim7_witness :
    Data.marshal builtinCodecs emptyData = .ok none ∧
    stanPublish ⟨"gen", "nid-7"⟩ "cli" { typ := "tick", cause := "", data := none } =
      .ok ("nid-7", .ok
        { id := "nid-7", typ := "tick", cause := "", client := "cli",
          data := none, encoding := "nil" }) :=
  claim7_nil_data builtinCodecs emptyData ⟨"gen", "nid-7"⟩ "cli"
    { typ := "tick", cause := "", data := none } rfl rfl rfl

/-- C9: `Decode` retains the cached bytes rather than consuming them — the
receiver is unchanged, and a second decode into another target type decodes
the same bytes and succeeds independently of the first. -/
theorem claim9_decode_frame (reg : Registry) (d : Data) (t1 t2 : GoType)
    (b : GoBytes) (c : Codec) (r1 r2 : GoVal)
    (hb : d.bytes = some b) (hg : codecGet reg d.Encoding = some c)
    (h1 : c.unmarshal b t1 = .ok r1) (h2 : c.unmarshal b t2 = .ok r2) :
    (d.decode reg t1).2 = d ∧
    (d.decode reg t1).1 = .ok r1 ∧
    (((d.decode reg t1).2).decode reg t2).1 = .ok r2 := by
  refine ⟨rfl, ?_, ?_⟩ <;> simp [Data.decode, hb] <;> rw [hg]
  · exact h1
  · exact h2

/-- C9 witness: a registered codec decoding the same retained bytes into a
byte-slice target and then a string target, both succeeding. -/
theorem claim9_witness :
    ((Data.decode
        (codecRegister builtinCodecs "omni"
          ⟨fun _ => .error "omni: encode-only",
           fun b t => match t with
             | .tbytes => .ok (.vbytes b)
             | .tstr => .ok (.vstr b)
             | .tjson => .error "omni: unsupported"⟩)
        { Encoding := "omni", Schema := "", value := none, bytes := some [7, 8] }
        .tbytes).2 =
      { Encoding := "omni", Schema := "", value := none, bytes := some [7, 8] }) ∧
    ((Data.decode
        (codecRegister builtinCodecs "omni"
          ⟨fun _ => .error "omni: encode-only",
           fun b t => match t with
             | .tbytes => .ok (.vbytes b)
             | .tstr => .ok (.vstr b)
             | .tjson => .error "omni: unsupported"⟩)
        { Encoding := "omni", Schema := "", value := none, bytes := some [7, 8] }
        .tbytes).1 = .ok (.vbytes [7, 8])) ∧
    (((Data.decode
        (codecRegister builtinCodecs "omni"
          ⟨fun _ => .error "omni: encode-only",
           fun b t => match t with
             | .tbytes => .ok (.vbytes b)
             | .tstr => .ok (.vstr b)
             | .tjson => .error "omni: unsupported"⟩)
        { Encoding := "omni", Schema := "", value := none, bytes := some [7, 8] }
        .tbytes).2).decode
        (codecRegister builtinCodecs "omni"
          ⟨fun _ => .error "omni: encode-only",
           fun b t => match t with
             | .tbytes => .ok (.vbytes b)
             | .tstr => .ok (.vstr b)
             | .tjson => .error "omni: unsupported"⟩)
        .tstr).1 = .ok (.vstr [7, 8]) :=
  claim9_decode_frame
    (codecRegister builtinCodecs "omni"
      ⟨fun _ => .error "omni: encode-only",
       fun b t => match t with
         | .tbytes => .ok (.vbytes b)
         | .tstr => .ok (.vstr b)
         | .tjson => .error "omni: unsupported"⟩)
    { Encoding := "omni", Schema := "", value := none, bytes := some [7, 8] }
    .tbytes .tstr [7, 8] _ (.vbytes [7, 8]) (.vstr [7, 8]) rfl rfl rfl rfl

/-- C10: when cached bytes are present and the encoding tag is non-empty,
`Data.Marshal` emits exactly the cached bytes under that tag, for every
registry (the codec registry is never consulted) and every stored value
(nothing is re-encoded). -/
theorem claim10_marshal_cached_bytes (reg : Registry) (d : Data) (b : GoBytes)
    (hb : d.bytes = some b) (he : d.Encoding ≠ "") :
    d.marshal reg =
      .ok (some (.ok { schema := d.Schema, encoding := d.Encoding, data := b })) := by
  unfold Data.marshal
  rw [hb]
  cases hv : d.value <;> simp [he, protoMarshal]

/-- C10 witness: cached bytes marshal unchanged under an unregistered tag
with an empty registry, ignoring the stored value. -/
theorem claim10_witness :
    Data.marshal []
      { Encoding := "mystery", Schema := "s", value := some (.vjson .jnull),
        bytes := some [9, 9] } =
      .ok (some (.ok { schema := "s", encoding := "mystery", data := [9, 9] })) :=
  claim10_marshal_cached_bytes []
    { Encoding := "mystery", Schema := "s", value := some (.vjson .jnull),
      bytes := some [9, 9] } [9, 9] rfl (by decide)

/-- C2 counterexample: in the `stan.go` subscription controller, a raw
message whose bytes fail protobuf unmarshaling does **not** halt the
subscription — the handler logs and returns, leaving the subscription
running, so the claim that it "logs and halts" is false at this input. -/
theorem claim2_counterexample :
    ¬ ((stanMsgHandlerV1 "client-1" none none (.junk 0)).halted = true) := by
  intro h
  simp [stanMsgHandlerV1] at h

/-- C2 (amended): on a structural unmarshal failure the `stan.go` handler
logs the error and returns without invoking the user handler and without
acknowledging — the malformed record is skipped to backend redelivery and
the subscription is not halted; the older `encode.go` handler instead sends
the error on the connection's error channel and cancels the connection
context (halting), also without invoking or acking, and without logging. -/
theorem claim2_amended_unmarshal_failure (client : String)
    (handleRes ackRes : Option String) (n : Nat) :
    (stanMsgHandlerV1 client handleRes ackRes (.junk n)).logs =
      ["[" ++ client ++ "] proto unmarshal failed: proto: cannot parse invalid wire-format data"] ∧
    (stanMsgHandlerV1 client handleRes ackRes (.junk n)).invoked = false ∧
    (stanMsgHandlerV1 client handleRes ackRes (.junk n)).acked = false ∧
    (stanMsgHandlerV1 client handleRes ackRes (.junk n)).halted = false ∧
    (stanMsgHandlerV2 handleRes ackRes (.junk n)).errsSent =
      ["proto: cannot parse invalid wire-format data"] ∧
    (stanMsgHandlerV2 handleRes ackRes (.junk n)).cancelled = true ∧
    (stanMsgHandlerV2 handleRes ackRes (.junk n)).invoked = false ∧
    (stanMsgHandlerV2 handleRes ackRes (.junk n)).acked = false := by
  refine ⟨rfl, rfl, rfl, rfl, rfl, rfl, rfl, rfl⟩

/-- C8 counterexample: replacing the overridable id-generator hook does not
change the id `Publish` assigns — `Publish` calls `nuid.Next()` directly,
so with the hook overridden to return `"custom-id"` the published id is
still the nuid value, not the hook's. -/
theorem claim8_counterexample :
    ¬ ((stanPublish ⟨"custom-id", "nuid-1"⟩ "cli"
          { typ := "t", cause := "", data := none }).map Prod.fst
        = .ok "custom-id") := by
  intro h
  simp [stanPublish, Except.map] at h

/-- C8 (amended): `Marshal` assigns ids through the overridable generator
variable (`GenId`/`NewID`), so replacing the hook changes the ids `Marshal`
assigns; `Publish`, however, generates its id directly with `nuid.Next`,
independent of the hook. -/
theorem claim8_idgen_hook :
    (∀ (reg : Registry) (g : Globals) (now : Int) (m : Message),
      m.ID = "" → ((m.marshal reg g now).2).ID = g.genId) ∧
    (∀ (g : Globals) (client : String) (evt : EventOut) (id : String)
        (w : PWire PbEvent),
      stanPublish g client evt = .ok (id, w) → id = g.nuidNext) ∧
    (∀ (gen gen2 nuid client : String) (evt : EventOut),
      stanPublish ⟨gen, nuid⟩ client evt = stanPublish ⟨gen2, nuid⟩ client evt) := by
  refine ⟨fun reg g now m hid => ?_, fun g client evt id w h => ?_,
    fun gen gen2 nuid client evt => rfl⟩
  · rw [Message.marshal_snd]
    simp [Message.setDefaults, hid]
  · unfold stanPublish at h
    rcases he : evt.data with _ | d <;> rw [he] at h
    · injection h with h2
      exact (congrArg Prod.fst h2).symm
    · dsimp only at h
      rcases hr : d.encodeRes with e | b <;> rw [hr] at h <;> dsimp only at h
      · cases h
      · injection h with h2
        exact (congrArg Prod.fst h2).symm

/-- C8 witness: a concrete marshal picks up the hook's id, a concrete
publish returns the nuid id, and overriding the hook leaves publish
unchanged. -/
theorem claim8_witness :
    (emptyMessage.ID = "" →
      ((Message.marshal builtinCodecs ⟨"hook-id", "nuid-9"⟩ 3 emptyMessage).2).ID
        = "hook-id") ∧
    (stanPublish ⟨"hook-id", "nuid-9"⟩ "cli" { typ := "t", cause := "", data := none }
        = .ok ("nuid-9", .ok { id := "nuid-9", typ := "t", cause := "", client := "cli",
                               data := none, encoding := "nil" }) →
      ("nuid-9" : String) = "nuid-9") ∧
    (stanPublish ⟨"a", "nuid-9"⟩ "cli" { typ := "t", cause := "", data := none }
      = stanPublish ⟨"b", "nuid-9"⟩ "cli" { typ := "t", cause := "", data := none }) :=
  ⟨fun h => claim8_idgen_hook.1 builtinCodecs ⟨"hook-id", "nuid-9"⟩ 3 emptyMessage h,
   fun h => claim8_idgen_hook.2.1 ⟨"hook-id", "nuid-9"⟩ "cli"
     { typ := "t", cause := "", data := none } "nuid-9" _ h,
   claim8_idgen_hook.2.2 "a" "b" "nuid-9" "cli" { typ := "t", cause := "", data := none }⟩

/-- C6: with `Serial` set, `Subscribe` passes `MaxInflight(1)` to the
backend (and passes no other in-flight cap); and in any delivery schedule
where at most one message is in flight at a time and deliveries follow
storage order, handler invocations never overlap and complete in publish
order (each message is acknowledged before any later message's invocation
starts). -/
theorem claim6_serial_inflight :
    (∀ (opts : SubscriptionOptions) (dn : String),
      opts.Serial = true → StanSubOption.maxInflight 1 ∈ stanSubOpts opts dn) ∧
    (∀ (opts : SubscriptionOptions) (dn : String) (n : Nat),
      StanSubOption.maxInflight n ∈ stanSubOpts opts dn →
        opts.Serial = true ∧ n = 1) ∧
    (∀ (s f : Nat → Nat),
      (∀ i, s i < f i) →
      (∀ i j, f i ≠ s j) →
      (∀ i j, i < j → s i < s j) →
      (∀ t i j, i ≠ j → ¬ (inflightAt s f i t ∧ inflightAt s f j t)) →
      ∀ i j, i < j → f i < s j) := by
  refine ⟨fun opts dn hs => ?_, fun opts dn n hmem => ?_,
    fun s f hsf hdist horder hcap i j hij => ?_⟩
  · simp [stanSubOpts, hs]
  · rcases hs : opts.Serial <;> rcases hd : opts.Durable <;>
      simp [stanSubOpts, hs, hd] at hmem <;> simp [hmem]
  · by_contra hle
    push_neg at hle
    have hne : f i ≠ s j := hdist i j
    have hgt : s j < f i := lt_of_le_of_ne hle (Ne.symm hne)
    exact hcap (s j) i j (Nat.ne_of_lt hij)
      ⟨⟨Nat.le_of_lt (horder i j hij), hgt⟩, ⟨Nat.le_refl _, hsf j⟩⟩

/-- C6 witness: a concrete serial subscription's options contain the cap of
one, and a concrete serialized schedule finishes message 0 before message 1
starts. -/
theorem claim6_witness :
    StanSubOption.maxInflight 1 ∈
      stanSubOpts { Name := "c", Backfill := true, Durable := true, Reset := false,
                    Serial := true, Timeout := 3 } "c" ∧
    (fun i => 3 * i + 1) 0 < (fun i => 3 * i) 1 :=
  ⟨claim6_serial_inflight.1
      { Name := "c", Backfill := true, Durable := true, Reset := false,
        Serial := true, Timeout := 3 } "c" rfl,
   claim6_serial_inflight.2.2 (fun i => 3 * i) (fun i => 3 * i + 1)
     (fun i => by show 3 * i < 3 * i + 1; omega)
     (fun i j => by show 3 * i + 1 ≠ 3 * j; omega)
     (fun i j h => by show 3 * i < 3 * j; omega)
     (fun t i j hne hin => by
       unfold inflightAt at hin
       simp only at hin
       omega)
     0 1 (by omega)⟩

/-- `Char.ofNat` inverts `Char.toNat` on valid scalar values. -/
theorem charToNat_ofNat (n : Nat) (h : n.isValidChar) : (Char.ofNat n).toNat = n := by
  unfold Char.ofNat
  rw [dif_pos h]
  rfl

/-- Scalar values below the surrogate range are valid. -/
theorem validChar_of_lt (n : Nat) (h : n < 0xD800) : n.isValidChar := Or.inl h

/-- `hexChar` produces the digit `hexDigVal` reads. -/
theorem hexDigVal_hexChar (k : Nat) (h : k < 16) : hexDigVal (hexChar k) = some k := by
  interval_cases k <;> decide

/-- Dropping whitespace is the identity on input with a non-whitespace
head. -/
theorem trimWS_cons (c : Char) (t : List Char) (h : isWS c = false) :
    trimWS (c :: t) = c :: t := by
  simp [trimWS, List.dropWhile_cons, h]

/-- `expectL` accepts exactly its literal prefix. -/
theorem expectL_self (lit r : List Char) : expectL lit (lit ++ r) = some r := by
  induction lit with
  | nil => rfl
  | cons l ls ih => simp [expectL, ih]

/-- The escape reader after `\u` with four hex digits of a non-surrogate
value: decode the scalar and continue. -/
theorem readStr_u4 (a b c d : Char) (rest : List Char) (v : Nat)
    (hq : hexQuad a b c d = some v) (hv : v < 0xD800) :
    readStr ('\\' :: 'u' :: a :: b :: c :: d :: rest)
      = (readStr rest).map (fun p => (Char.ofNat v :: p.1, p.2)) := by
  rw [readStr.eq_def]
  split
  next x heq => simp at heq
  next x r heq => simp at heq
  next x a2 b2 c2 d2 e2 f2 g2 h2 r3 heq =>
    obtain ⟨rfl, rfl, rfl, rfl, rfl⟩ : a2 = a ∧ b2 = b ∧ c2 = c ∧ d2 = d ∧
        rest = '\\' :: 'u' :: e2 :: f2 :: g2 :: h2 :: r3 := by
      simp at heq
      tauto
    rw [hq]
    dsimp only
    rw [if_neg (by omega), if_neg (by omega)]
  next x a2 b2 c2 d2 r2 hnc heq =>
    obtain ⟨rfl, rfl, rfl, rfl, rfl⟩ : a2 = a ∧ b2 = b ∧ c2 = c ∧ d2 = d ∧ rest = r2 := by
      simp at heq
      tauto
    rw [hq]
    dsimp only
    rw [if_neg (by omega)]
  next x e2 r2 hnc1 hnc2 heq =>
    obtain ⟨rfl, rfl⟩ : e2 = 'u' ∧ r2 = a :: b :: c :: d :: rest := by
      simp at heq
      tauto
    exact (hnc2 a b c d rest rfl rfl).elim
  next x heq => simp at heq
  next x cc rr k1 k2 k3 k4 k5 heq =>
    obtain ⟨rfl, rfl⟩ : cc = '\\' ∧ rr = 'u' :: a :: b :: c :: d :: rest := by
      simp at heq
      tauto
    exact (k4 'u' (a :: b :: c :: d :: rest) rfl rfl).elim

/-- The string reader copies a plain (unescaped, non-control) character. -/
theorem readStr_other (c : Char) (rest : List Char)
    (h1 : c ≠ '"') (h2 : c ≠ '\\') (h3 : ¬ c.toNat < 32) :
    readStr (c :: rest) = (readStr rest).map (fun p => (c :: p.1, p.2)) := by
  rw [readStr.eq_def]
  split
  next x heq => simp at heq
  next x r heq =>
    obtain ⟨rfl, -⟩ : c = '"' ∧ rest = r := by
      simp at heq
      tauto
    exact absurd rfl h1
  next x a2 b2 c2 d2 e2 f2 g2 h2 r3 heq =>
    obtain ⟨rfl, -⟩ : c = '\\' ∧ rest = 'u' :: a2 :: b2 :: c2 :: d2 :: '\\' :: 'u' :: e2 :: f2 :: g2 :: h2 :: r3 := by
      simp at heq
      tauto
    exact absurd rfl h2
  next x a2 b2 c2 d2 r2 hnc heq =>
    obtain ⟨rfl, -⟩ : c = '\\' ∧ rest = 'u' :: a2 :: b2 :: c2 :: d2 :: r2 := by
      simp at heq
      tauto
    exact absurd rfl h2
  next x e2 r2 hnc1 hnc2 heq =>
    obtain ⟨rfl, -⟩ : c = '\\' ∧ rest = e2 :: r2 := by
      simp at heq
      tauto
    exact absurd rfl h2
  next x heq =>
    obtain ⟨rfl, -⟩ : c = '\\' ∧ rest = [] := by
      simp at heq
      tauto
    exact absurd rfl h2
  next x cc rr k1 k2 k3 k4 k5 heq =>
    obtain ⟨rfl, rfl⟩ : cc = c ∧ rr = rest := by
      simp at heq
      tauto
    rw [if_neg h3]

/-- The string reader undoes one Go escape. -/
theorem readStr_escGo (c : Char) (rest : List Char) :
    readStr (escGo c ++ rest) = (readStr rest).map (fun p => (c :: p.1, p.2)) := by
  unfold escGo
  split_ifs with h1 h2 h3 h4 h5 h6 h7
  · subst h1
    simp [readStr, unesc]
  · subst h2
    simp [readStr, unesc]
  · subst h3
    simp [readStr, unesc]
  · subst h4
    simp [readStr, unesc]
  · subst h5
    simp [readStr, unesc]
  · have hlt : c.toNat < 256 := by
      rcases h6 with h | h | h | h
      · omega
      all_goals subst h
      all_goals decide
    have hq : hexQuad '0' '0' (hexChar (c.toNat / 16)) (hexChar (c.toNat % 16))
        = some c.toNat := by
      unfold hexQuad
      rw [hexDigVal_hexChar (c.toNat / 16) (by omega),
          hexDigVal_hexChar (c.toNat % 16) (by omega)]
      have h0 : hexDigVal '0' = some 0 := by decide
      rw [h0]
      dsimp only
      congr 1
      omega
    have := readStr_u4 '0' '0' (hexChar (c.toNat / 16)) (hexChar (c.toNat % 16))
      rest c.toNat hq (by omega)
    simp only [List.cons_append, List.nil_append] at this ⊢
    rw [this, Char.ofNat_toNat]
  · have hq : hexQuad '2' '0' '2' (hexChar (c.toNat % 16)) = some c.toNat := by
      unfold hexQuad
      rw [hexDigVal_hexChar (c.toNat % 16) (by omega)]
      have h0 : hexDigVal '0' = some 0 := by decide
      have h2c : hexDigVal '2' = some 2 := by decide
      rw [h0, h2c]
      dsimp only
      congr 1
      rcases h7 with h | h <;> omega
    have := readStr_u4 '2' '0' '2' (hexChar (c.toNat % 16)) rest c.toNat hq
      (by rcases h7 with h | h <;> omega)
    simp only [List.cons_append, List.nil_append] at this ⊢
    rw [this, Char.ofNat_toNat]
  · simp only [List.cons_append, List.nil_append]
    exact readStr_other c rest h1 h2 (by omega)

/-- The string reader inverts Go's escaping of a whole string body, stopping
at the closing quote. -/
theorem readStr_ser (s : List Char) (r : List Char) :
    readStr (s.flatMap escGo ++ '"' :: r) = some (s, r) := by
  induction s with
  | nil => simp [readStr]
  | cons c s ih =>
    rw [List.flatMap_cons, List.append_assoc, readStr_escGo, ih]
    rfl

/-- `jdigit k` is a digit character of value `48 + k`. -/
theorem jdigit_spec (k : Nat) (h : k < 10) :
    (jdigit k).isDigit = true ∧ (jdigit k).toNat = 48 + k := by
  interval_cases k <;> exact ⟨by decide, by decide⟩

/-- `natChars` output is nonempty. -/
theorem natChars_ne_nil (n : Nat) : natChars n ≠ [] := by
  rw [natChars.eq_def]
  split <;> simp

/-- `natChars` output is all digit characters. -/
theorem natChars_digits (n : Nat) : ∀ c ∈ natChars n, c.isDigit = true := by
  induction n using Nat.strong_induction_on with
  | _ n ih =>
    rw [natChars.eq_def]
    split
    · intro c hc
      rw [List.mem_singleton] at hc
      subst hc
      exact (jdigit_spec n (by omega)).1
    · intro c hc
      rw [List.mem_append] at hc
      rcases hc with hc | hc
      · exact ih (n / 10) (Nat.div_lt_self (by omega) (by omega)) c hc
      · rw [List.mem_singleton] at hc
        subst hc
        exact (jdigit_spec (n % 10) (Nat.mod_lt _ (by omega))).1

/-- `charsVal` folds over the recorded digits back to the number. -/
theorem charsVal_natChars (n : Nat) : charsVal (natChars n) = n := by
  induction n using Nat.strong_induction_on with
  | _ n ih =>
    rw [natChars.eq_def]
    split
    · simp [charsVal, (jdigit_spec n (by omega)).2]
    · unfold charsVal
      rw [List.foldl_append]
      have hv := ih (n / 10) (Nat.div_lt_self (by omega) (by omega))
      unfold charsVal at hv
      rw [hv]
      simp [(jdigit_spec (n % 10) (Nat.mod_lt _ (by omega))).2]
      omega

/-- The digit run of `natChars` starts with a digit character. -/
theorem natChars_cons (n : Nat) :
    ∃ c t, natChars n = c :: t ∧ c.isDigit = true := by
  rcases h : natChars n with _ | ⟨c, t⟩
  · exact absurd h (natChars_ne_nil n)
  · exact ⟨c, t, rfl, natChars_digits n c (h ▸ List.mem_cons_self c t)⟩

/-- A digit character differs from every non-digit character. -/
theorem digit_ne (c : Char) (h : c.isDigit = true) (x : Char) (hx : x.isDigit = false) :
    c ≠ x := by
  intro he
  rw [he, hx] at h
  cases h

/-- Digit characters are not JSON whitespace. -/
theorem digit_not_ws (c : Char) (h : c.isDigit = true) : isWS c = false := by
  unfold isWS
  simp [digit_ne c h ' ' (by decide), digit_ne c h '\t' (by decide),
        digit_ne c h '\n' (by decide), digit_ne c h '\r' (by decide)]

/-- `takeWhile`/`dropWhile` on a digit run followed by a non-digit head
split exactly at the boundary. -/
theorem span_digits (ds r : List Char) (hds : ∀ c ∈ ds, c.isDigit = true)
    (hr : ∀ c ∈ r.head?, c.isDigit = false) :
    (ds ++ r).takeWhile Char.isDigit = ds ∧ (ds ++ r).dropWhile Char.isDigit = r := by
  induction ds with
  | nil =>
    simp only [List.nil_append]
    cases r with
    | nil => simp
    | cons c t =>
      have hcd : c.isDigit = false := hr c (by simp)
      simp [List.takeWhile_cons, List.dropWhile_cons, hcd]
  | cons d ds ih =>
    have hd : d.isDigit = true := hds d (by simp)
    have hih := ih (fun c hc => hds c (by simp [hc]))
    simp [List.takeWhile_cons, List.dropWhile_cons, hd, hih.1, hih.2]

/-- `tailOk` input has no digit at its head. -/
theorem tailOk_head (r : List Char) (hr : tailOk r = true) :
    ∀ c ∈ r.head?, c.isDigit = false := by
  cases r with
  | nil => simp
  | cons c t =>
    intro c2 hc2
    simp only [List.head?_cons, Option.mem_def, Option.some.injEq] at hc2
    subst hc2
    unfold tailOk at hr
    simp only [Bool.not_eq_true', Bool.or_eq_false_iff] at hr
    exact hr.1.1.1

/-- `readNat` inverts `natChars` whenever the remainder cannot extend the
number. -/
theorem readNat_ser (n : Nat) (r : List Char) (hr : tailOk r = true) :
    readNat (natChars n ++ r) = some (n, r) := by
  have hspan := span_digits (natChars n) r (natChars_digits n) (tailOk_head r hr)
  unfold readNat
  rw [hspan.1, hspan.2, if_neg (natChars_ne_nil n)]
  cases r with
  | nil => rw [charsVal_natChars]
  | cons c t =>
    unfold tailOk at hr
    simp only [Bool.not_eq_true', Bool.or_eq_false_iff, decide_eq_false_iff_not] at hr
    dsimp only
    rw [if_neg (by push_neg; exact ⟨hr.1.1.2, hr.1.2, hr.2⟩), charsVal_natChars]

/-- The value parser reads an integer (Go accepts a leading minus, then a
digit run) whenever the remainder cannot extend it. -/
theorem parseV_int (fu : Nat) (i : Int) (r : List Char) (hr : tailOk r = true) :
    parseV (fu + 1) (intChars i ++ r) = some (.jint i, r) := by
  unfold intChars
  split_ifs with hneg
  · rw [List.cons_append, parseV, trimWS, List.dropWhile_cons, if_neg (by decide)]
    dsimp only
    rw [if_neg (by decide), if_neg (by decide), if_neg (by decide), if_neg (by decide),
        if_neg (by decide), if_neg (by decide), if_pos rfl, readNat_ser i.natAbs r hr]
    simp only [Option.map_some']
    have he : -(i.natAbs : Int) = i := by omega
    rw [he]
  · obtain ⟨c0, t0, hsh, hc0⟩ := natChars_cons i.natAbs
    rw [hsh, List.cons_append, parseV, trimWS, List.dropWhile_cons,
        if_neg (by rw [digit_not_ws c0 hc0]; exact Bool.false_ne_true)]
    dsimp only
    rw [if_neg (digit_ne c0 hc0 'n' (by decide)), if_neg (digit_ne c0 hc0 't' (by decide)),
        if_neg (digit_ne c0 hc0 'f' (by decide)), if_neg (digit_ne c0 hc0 '"' (by decide)),
        if_neg (digit_ne c0 hc0 '[' (by decide)), if_neg (digit_ne c0 hc0 '{' (by decide)),
        if_neg (digit_ne c0 hc0 '-' (by decide)), if_pos hc0]
    rw [show c0 :: (t0 ++ r) = (c0 :: t0) ++ r from rfl, ← hsh, readNat_ser i.natAbs r hr]
    simp only [Option.map_some']
    have he : (i.natAbs : Int) = i := by omega
    rw [he]

/-- Every serialized value starts with a non-whitespace character that is
not a closer. -/
theorem serV_head (v : Jval) :
    ∃ c t, serV v = c :: t ∧ isWS c = false ∧ c ≠ ']' ∧ c ≠ '}' := by
  cases v with
  | jnull => exact ⟨'n', _, rfl, rfl, by decide, by decide⟩
  | jbool b => cases b <;> exact ⟨_, _, rfl, rfl, by decide, by decide⟩
  | jstr s => exact ⟨'"', _, rfl, rfl, by decide, by decide⟩
  | jarr es => exact ⟨'[', _, rfl, rfl, by decide, by decide⟩
  | jobj ms => exact ⟨'{', _, rfl, rfl, by decide, by decide⟩
  | jint i =>
    unfold serV intChars
    split_ifs with hneg
    · exact ⟨'-', _, rfl, by decide, by decide, by decide⟩
    · obtain ⟨c0, t0, hsh, hc0⟩ := natChars_cons i.natAbs
      exact ⟨c0, t0, hsh, digit_not_ws c0 hc0,
        digit_ne c0 hc0 ']' (by decide), digit_ne c0 hc0 '}' (by decide)⟩

/-- A nonempty serialized element list starts like its first value. -/
theorem serItems_head (e : Jval) (es : List Jval) :
    ∃ c t, serItems (e :: es) = c :: t ∧ isWS c = false ∧ c ≠ ']' ∧ c ≠ '}' := by
  obtain ⟨c, t, hsh, h1, h2, h3⟩ := serV_head e
  cases es with
  | nil =>
    exact ⟨c, t, by rw [show serItems [e] = serV e from rfl, hsh], h1, h2, h3⟩
  | cons e2 es2 =>
    refine ⟨c, t ++ ',' :: serItems (e2 :: es2), ?_, h1, h2, h3⟩
    rw [show serItems (e :: e2 :: es2) = serV e ++ ',' :: serItems (e2 :: es2) from rfl, hsh]
    rfl

/-- Sizes are positive. -/
theorem sizeJ_pos (v : Jval) : 1 ≤ sizeJ v := by
  cases v <;> simp [sizeJ]

/-- Element-list sizes are positive. -/
theorem sizeIt_pos (es : List Jval) : 1 ≤ sizeIt es := by
  cases es with
  | nil => simp [sizeIt]
  | cons e es =>
    have := sizeJ_pos e
    simp [sizeIt]
    omega

/-- Member-list sizes are positive. -/
theorem sizeFl_pos (ms : List (List Char × Jval)) : 1 ≤ sizeFl ms := by
  cases ms with
  | nil => simp [sizeFl]
  | cons m ms =>
    cases m with
    | mk k v =>
      have := sizeJ_pos v
      simp [sizeFl]
      omega

/-- A nonempty serialized member list starts with a quote. -/
theorem serFields_head (m : List Char × Jval) (ms : List (List Char × Jval)) :
    ∃ t, serFields (m :: ms) = '"' :: t := by
  cases m with
  | mk k v =>
    cases ms with
    | nil =>
      refine ⟨k.flatMap escGo ++ '"' :: ':' :: serV v, ?_⟩
      simp [serFields, serStr]
    | cons m2 ms3 =>
      refine ⟨k.flatMap escGo ++ '"' :: ':' :: (serV v ++ ',' :: serFields (m2 :: ms3)), ?_⟩
      simp [serFields, serStr]

mutual

/-- Round trip: the parser inverts the serializer on every JSON value,
given fuel at least the value's node count and a remainder that cannot
extend a number. -/
theorem rtV : ∀ (fu : Nat) (v : Jval) (r : List Char),
    sizeJ v ≤ fu → tailOk r = true → parseV fu (serV v ++ r) = some (v, r)
  | 0, v, _ => fun hs _ => absurd hs (by have := sizeJ_pos v; omega)
  | fu + 1, v, r => fun hs hr => by
    cases v with
    | jnull =>
      rw [show serV .jnull ++ r = 'n' :: ('u' :: 'l' :: 'l' :: r) from rfl,
          parseV, trimWS, List.dropWhile_cons, if_neg (by decide)]
      dsimp only
      rw [if_pos rfl, show 'u' :: 'l' :: 'l' :: r = ['u', 'l', 'l'] ++ r from rfl,
          expectL_self]
      rfl
    | jbool b =>
      cases b with
      | true =>
        rw [show serV (.jbool true) ++ r = 't' :: ('r' :: 'u' :: 'e' :: r) from rfl,
            parseV, trimWS, List.dropWhile_cons, if_neg (by decide)]
        dsimp only
        rw [if_neg (by decide), if_pos rfl,
            show 'r' :: 'u' :: 'e' :: r = ['r', 'u', 'e'] ++ r from rfl, expectL_self]
        rfl
      | false =>
        rw [show serV (.jbool false) ++ r = 'f' :: ('a' :: 'l' :: 's' :: 'e' :: r) from rfl,
            parseV, trimWS, List.dropWhile_cons, if_neg (by decide)]
        dsimp only
        rw [if_neg (by decide), if_neg (by decide), if_pos rfl,
            show 'a' :: 'l' :: 's' :: 'e' :: r = ['a', 'l', 's', 'e'] ++ r from rfl,
            expectL_self]
        rfl
    | jint i => exact parseV_int fu i r hr
    | jstr s =>
      rw [show serV (.jstr s) ++ r = '"' :: (s.flatMap escGo ++ '"' :: r) by
            rw [show serV (.jstr s) = '"' :: (s.flatMap escGo ++ ['"']) from rfl]
            simp,
          parseV, trimWS, List.dropWhile_cons, if_neg (by decide)]
      dsimp only
      rw [if_neg (by decide), if_neg (by decide), if_neg (by decide), if_pos rfl,
          readStr_ser]
      rfl
    | jarr es =>
      cases es with
      | nil =>
        rw [show serV (.jarr []) ++ r = '[' :: (']' :: r) from rfl,
            parseV, trimWS, List.dropWhile_cons, if_neg (by decide)]
        dsimp only
        rw [if_neg (by decide), if_neg (by decide), if_neg (by decide),
            if_neg (by decide), if_pos rfl, trimWS, List.dropWhile_cons,
            if_neg (by decide)]
        dsimp only
        rw [if_pos rfl]
      | cons e es2 =>
        have hsz : sizeIt (e :: es2) ≤ fu := by
          have h1 : sizeJ (.jarr (e :: es2)) = 1 + sizeIt (e :: es2) := rfl
          omega
        obtain ⟨c0, t0, hsh, hws, hbr, -⟩ := serItems_head e es2
        rw [show serV (.jarr (e :: es2)) ++ r = '[' :: (serItems (e :: es2) ++ ']' :: r) by
              rw [show serV (.jarr (e :: es2)) = '[' :: (serItems (e :: es2) ++ [']']) from rfl]
              simp,
            parseV, trimWS, List.dropWhile_cons, if_neg (by decide)]
        dsimp only
        rw [if_neg (by decide), if_neg (by decide), if_neg (by decide),
            if_neg (by decide), if_pos rfl, hsh, List.cons_append, trimWS,
            List.dropWhile_cons, if_neg (by rw [hws]; exact Bool.false_ne_true)]
        dsimp only
        rw [if_neg hbr, show c0 :: (t0 ++ ']' :: r) = (c0 :: t0) ++ ']' :: r from rfl,
            ← hsh, rtItems fu (e :: es2) r (by simp) hsz hr]
        rfl
    | jobj ms =>
      cases ms with
      | nil =>
        rw [show serV (.jobj []) ++ r = '{' :: ('}' :: r) from rfl,
            parseV, trimWS, List.dropWhile_cons, if_neg (by decide)]
        dsimp only
        rw [if_neg (by decide), if_neg (by decide), if_neg (by decide),
            if_neg (by decide), if_neg (by decide), if_pos rfl, trimWS,
            List.dropWhile_cons, if_neg (by decide)]
        dsimp only
        rw [if_pos rfl]
      | cons m ms2 =>
        have hsz : sizeFl (m :: ms2) ≤ fu := by
          have h1 : sizeJ (.jobj (m :: ms2)) = 1 + sizeFl (m :: ms2) := rfl
          omega
        obtain ⟨t0, hsh⟩ := serFields_head m ms2
        rw [show serV (.jobj (m :: ms2)) ++ r = '{' :: (serFields (m :: ms2) ++ '}' :: r) by
              rw [show serV (.jobj (m :: ms2)) = '{' :: (serFields (m :: ms2) ++ ['}']) from rfl]
              simp,
            parseV, trimWS, List.dropWhile_cons, if_neg (by decide)]
        dsimp only
        rw [if_neg (by decide), if_neg (by decide), if_neg (by decide),
            if_neg (by decide), if_neg (by decide), if_pos rfl, hsh, List.cons_append,
            trimWS, List.dropWhile_cons, if_neg (by decide)]
        dsimp only
        rw [if_neg (by decide), show '"' :: (t0 ++ '}' :: r) = ('"' :: t0) ++ '}' :: r from rfl,
            ← hsh, rtFields fu (m :: ms2) r (by simp) hsz hr]
        rfl
  termination_by fu _ _ => (fu, 0)

/-- Round trip for a nonempty comma-separated element list up to its
closing bracket. -/
theorem rtItems : ∀ (fu : Nat) (es : List Jval) (r : List Char),
    es ≠ [] → sizeIt es ≤ fu → tailOk r = true →
    parseItems fu (serItems es ++ ']' :: r) = some (es, r)
  | 0, es, _ => fun _ hs _ => absurd hs (by have := sizeIt_pos es; omega)
  | fu + 1, es, r => fun hne hs hr => by
    cases es with
    | nil => exact absurd rfl hne
    | cons e es2 =>
      cases es2 with
      | nil =>
        have hszJ : sizeJ e ≤ fu := by
          have h1 : sizeIt [e] = sizeJ e + 1 := rfl
          omega
        rw [show serItems [e] = serV e from rfl, parseItems,
            rtV fu e (']' :: r) hszJ (by rfl)]
        dsimp only
        rw [trimWS, List.dropWhile_cons, if_neg (by decide)]
        dsimp only
        rw [if_neg (by decide), if_pos rfl]
      | cons e2 es3 =>
        have hszJ : sizeJ e ≤ fu := by
          have h1 : sizeIt (e :: e2 :: es3) = sizeJ e + sizeIt (e2 :: es3) := rfl
          have h2 := sizeIt_pos (e2 :: es3)
          omega
        have hszT : sizeIt (e2 :: es3) ≤ fu := by
          have h1 : sizeIt (e :: e2 :: es3) = sizeJ e + sizeIt (e2 :: es3) := rfl
          have h2 := sizeJ_pos e
          omega
        rw [show serItems (e :: e2 :: es3) ++ ']' :: r =
              serV e ++ (',' :: (serItems (e2 :: es3) ++ ']' :: r)) by
            rw [show serItems (e :: e2 :: es3) = serV e ++ ',' :: serItems (e2 :: es3) from rfl]
            simp,
          parseItems, rtV fu e (',' :: (serItems (e2 :: es3) ++ ']' :: r)) hszJ (by rfl)]
        dsimp only
        rw [trimWS, List.dropWhile_cons, if_neg (by decide)]
        dsimp only
        rw [if_pos rfl, rtItems fu (e2 :: es3) r (by simp) hszT hr]
        rfl
  termination_by fu _ _ => (fu, 1)

/-- Round trip for a nonempty comma-separated member list up to its closing
brace. -/
theorem rtFields : ∀ (fu : Nat) (ms : List (List Char × Jval)) (r : List Char),
    ms ≠ [] → sizeFl ms ≤ fu → tailOk r = true →
    parseFields fu (serFields ms ++ '}' :: r) = some (ms, r)
  | 0, ms, _ => fun _ hs _ => absurd hs (by have := sizeFl_pos ms; omega)
  | fu + 1, ms, r => fun hne hs hr => by
    cases ms with
    | nil => exact absurd rfl hne
    | cons m ms2 =>
      cases m with
      | mk k v =>
        cases ms2 with
        | nil =>
          have hszV : sizeJ v ≤ fu := by
            have h1 : sizeFl [(k, v)] = sizeJ v + 1 := rfl
            omega
          rw [show serFields [(k, v)] ++ '}' :: r =
                '"' :: (k.flatMap escGo ++ '"' :: (':' :: (serV v ++ '}' :: r))) by
              simp [serFields, serStr],
            parseFields, trimWS, List.dropWhile_cons, if_neg (by decide)]
          dsimp only
          rw [if_pos rfl, readStr_ser]
          dsimp only
          rw [trimWS, List.dropWhile_cons, if_neg (by decide)]
          dsimp only
          rw [if_pos rfl, rtV fu v ('}' :: r) hszV (by rfl)]
          dsimp only
          rw [trimWS, List.dropWhile_cons, if_neg (by decide)]
          dsimp only
          rw [if_neg (by decide), if_pos rfl]
        | cons m2 ms3 =>
          have hszV : sizeJ v ≤ fu := by
            have h1 : sizeFl ((k, v) :: m2 :: ms3) = sizeJ v + sizeFl (m2 :: ms3) := rfl
            have h2 := sizeFl_pos (m2 :: ms3)
            omega
          have hszT : sizeFl (m2 :: ms3) ≤ fu := by
            have h1 : sizeFl ((k, v) :: m2 :: ms3) = sizeJ v + sizeFl (m2 :: ms3) := rfl
            have h2 := sizeJ_pos v
            omega
          rw [show serFields ((k, v) :: m2 :: ms3) ++ '}' :: r =
                '"' :: (k.flatMap escGo ++ '"' ::
                  (':' :: (serV v ++ (',' :: (serFields (m2 :: ms3) ++ '}' :: r))))) by
              simp [serFields, serStr],
            parseFields, trimWS, List.dropWhile_cons, if_neg (by decide)]
          dsimp only
          rw [if_pos rfl, readStr_ser]
          dsimp only
          rw [trimWS, List.dropWhile_cons, if_neg (by decide)]
          dsimp only
          rw [if_pos rfl, rtV fu v (',' :: (serFields (m2 :: ms3) ++ '}' :: r)) hszV (by rfl)]
          dsimp only
          rw [trimWS, List.dropWhile_cons, if_neg (by decide)]
          dsimp only
          rw [if_pos rfl, rtFields fu (m2 :: ms3) r (by simp) hszT hr]
          rfl
  termination_by fu _ _ => (fu, 1)

end

mutual

/-- A value's node count is bounded by its serialized length. -/
theorem sizeJ_le_len : ∀ v : Jval, sizeJ v ≤ (serV v).length
  | .jnull => by simp [sizeJ, serV]
  | .jbool b => by cases b <;> simp [sizeJ, serV]
  | .jint i => by
    have h := natChars_ne_nil i.natAbs
    have h2 : 1 ≤ (natChars i.natAbs).length := List.length_pos.mpr h
    simp only [sizeJ, serV, intChars]
    split_ifs <;> simp <;> omega
  | .jstr s => by simp [sizeJ, serV, serStr]
  | .jarr es => by
    have h := sizeIt_le_len es
    simp only [sizeJ, serV, List.length_cons, List.length_append, List.length_singleton]
    omega
  | .jobj ms => by
    have h := sizeFl_le_len ms
    simp only [sizeJ, serV, List.length_cons, List.length_append, List.length_singleton]
    omega

/-- An element list's size is bounded by its serialized length plus one. -/
theorem sizeIt_le_len : ∀ es : List Jval, sizeIt es ≤ (serItems es).length + 1
  | [] => by simp [sizeIt, serItems]
  | [e] => by
    have h := sizeJ_le_len e
    simp only [sizeIt, serItems]
    omega
  | e :: e2 :: es => by
    have h1 := sizeJ_le_len e
    have h2 := sizeIt_le_len (e2 :: es)
    have e1 : sizeIt (e :: e2 :: es) = sizeJ e + sizeIt (e2 :: es) := rfl
    have e2l : (serItems (e :: e2 :: es)).length
        = (serV e).length + (1 + (serItems (e2 :: es)).length) := by
      rw [show serItems (e :: e2 :: es) = serV e ++ ',' :: serItems (e2 :: es) from rfl]
      simp
      omega
    omega

/-- A member list's size is bounded by its serialized length plus one. -/
theorem sizeFl_le_len : ∀ ms : List (List Char × Jval), sizeFl ms ≤ (serFields ms).length + 1
  | [] => by simp [sizeFl, serFields]
  | [(k, v)] => by
    have h := sizeJ_le_len v
    simp only [sizeFl, show serFields [(k, v)] = serStr k ++ ':' :: serV v from rfl,
      List.length_append, List.length_cons]
    omega
  | (k, v) :: m2 :: ms => by
    have h1 := sizeJ_le_len v
    have h2 := sizeFl_le_len (m2 :: ms)
    have e1 : sizeFl ((k, v) :: m2 :: ms) = sizeJ v + sizeFl (m2 :: ms) := rfl
    have hsf : serFields ((k, v) :: m2 :: ms)
        = serStr k ++ ':' :: (serV v ++ ',' :: serFields (m2 :: ms)) := by
      simp [serFields]
    have e2l := congrArg List.length hsf
    simp only [List.length_append, List.length_cons] at e2l
    omega

end

/-- Parsing a whole serialized document returns the value. -/
theorem jsonParseDoc_ser (v : Jval) : jsonParseDoc (serV v) = some v := by
  unfold jsonParseDoc
  have hfu : sizeJ v ≤ (serV v).length + 1 := Nat.le_succ_of_le (sizeJ_le_len v)
  have h := rtV ((serV v).length + 1) v [] hfu rfl
  rw [List.append_nil] at h
  rw [h]
  rfl

/-- UTF-8 decoding undoes the encoding of one scalar and continues. -/
theorem utf8Dec_enc (c : Char) (r : GoBytes) :
    utf8Dec (utf8Enc c ++ r) = (utf8Dec r).map (c :: ·) := by
  have hv : c.toNat < 55296 ∨ 57343 < c.toNat ∧ c.toNat < 1114112 := c.valid
  unfold utf8Enc
  split_ifs with h1 h2 h3
  · rw [List.cons_append, List.nil_append, utf8Dec, if_pos h1, Char.ofNat_toNat]
  · rw [List.cons_append, List.cons_append, List.nil_append, utf8Dec,
        if_neg (by omega), if_neg (by omega), if_pos (by omega), u2dec,
        if_pos (by simp [isCont]; omega)]
    have harith : (0xC0 + c.toNat / 64 - 0xC0) * 64 + (0x80 + c.toNat % 64 - 0x80)
        = c.toNat := by omega
    rw [harith, Char.ofNat_toNat]
  · rw [List.cons_append, List.cons_append, List.cons_append, List.nil_append, utf8Dec,
        if_neg (by omega), if_neg (by omega), if_neg (by omega), if_pos (by omega),
        u3dec, if_pos (by simp [u3ok, u3val, isCont]; omega)]
    have harith : u3val (0xE0 + c.toNat / 4096) (0x80 + c.toNat / 64 % 64)
        (0x80 + c.toNat % 64) = c.toNat := by
      unfold u3val
      omega
    rw [harith, Char.ofNat_toNat]
  · rw [List.cons_append, List.cons_append, List.cons_append, List.cons_append,
        List.nil_append, utf8Dec, if_neg (by omega), if_neg (by omega),
        if_neg (by omega), if_neg (by omega), if_pos (by omega),
        u4dec, if_pos (by simp [u4ok, u4val, isCont]; omega)]
    have harith : u4val (0xF0 + c.toNat / 0x40000) (0x80 + c.toNat / 4096 % 64)
        (0x80 + c.toNat / 64 % 64) (0x80 + c.toNat % 64) = c.toNat := by
      unfold u4val
      omega
    rw [harith, Char.ofNat_toNat]

/-- UTF-8 decoding inverts the encoding of scalar text. -/
theorem utf8Dec_encAll (cs : List Char) : utf8Dec (utf8EncAll cs) = some cs := by
  induction cs with
  | nil =>
    rw [show utf8EncAll [] = [] from rfl, utf8Dec]
  | cons c cs ih =>
    rw [utf8EncAll, List.flatMap_cons, ← utf8EncAll, utf8Dec_enc, ih]
    rfl

/-- C1: for every built-in codec among `bytes`, `string` and `json`, and
every value the codec accepts, unmarshaling the marshaled bytes into a
target of the value's type returns the value. -/
theorem claim1_codec_roundtrip (name : String) (v : GoVal) (b : GoBytes) (c : Codec)
    (hname : name = "bytes" ∨ name = "string" ∨ name = "json")
    (hget : codecGet builtinCodecs name = some c)
    (hm : c.marshal v = .ok b) :
    c.unmarshal b (goTypeOf v) = .ok v := by
  rcases hname with rfl | rfl | rfl
  · have hc : c = bytesCodec := by
      rw [show codecGet builtinCodecs "bytes" = some bytesCodec from rfl] at hget
      injection hget with h
      exact h.symm
    subst hc
    cases v with
    | vbytes bb =>
      have hb : bb = b := by
        injection hm
      subst hb
      rfl
    | vstr s => exact absurd hm (by simp [bytesCodec])
    | vjson j => exact absurd hm (by simp [bytesCodec])
  · have hc : c = stringCodec := by
      rw [show codecGet builtinCodecs "string" = some stringCodec from rfl] at hget
      injection hget with h
      exact h.symm
    subst hc
    cases v with
    | vstr s =>
      have hb : s = b := by
        injection hm
      subst hb
      rfl
    | vbytes bb => exact absurd hm (by simp [stringCodec])
    | vjson j => exact absurd hm (by simp [stringCodec])
  · have hc : c = jsonCodec := by
      rw [show codecGet builtinCodecs "json" = some jsonCodec from rfl] at hget
      injection hget with h
      exact h.symm
    subst hc
    cases v with
    | vjson j =>
      have hb : utf8EncAll (serV j) = b := by
        injection hm
      subst hb
      show (match (utf8Dec (utf8EncAll (serV j))).bind jsonParseDoc with
            | some j2 => Except.ok (GoVal.vjson j2)
            | none => Except.error "invalid JSON") = Except.ok (GoVal.vjson j)
      rw [utf8Dec_encAll,
          show (some (serV j)).bind jsonParseDoc = jsonParseDoc (serV j) from rfl,
          jsonParseDoc_ser]
    | vbytes bb => exact absurd hm (by simp [jsonCodec])
    | vstr s => exact absurd hm (by simp [jsonCodec])

/-- C1 witness: the json codec round-trips a concrete array of an integer,
a string and null. -/
theorem claim1_witness :
    codecGet builtinCodecs "json" = some jsonCodec ∧
    jsonCodec.marshal (.vjson (.jarr [.jint (-3), .jstr ['a'], .jnull]))
      = .ok (utf8EncAll (serV (.jarr [.jint (-3), .jstr ['a'], .jnull]))) ∧
    jsonCodec.unmarshal (utf8EncAll (serV (.jarr [.jint (-3), .jstr ['a'], .jnull])))
        (goTypeOf (.vjson (.jarr [.jint (-3), .jstr ['a'], .jnull])))
      = .ok (.vjson (.jarr [.jint (-3), .jstr ['a'], .jnull])) :=
  ⟨rfl, rfl,
   claim1_codec_roundtrip "json" (.vjson (.jarr [.jint (-3), .jstr ['a'], .jnull]))
     (utf8EncAll (serV (.jarr [.jint (-3), .jstr ['a'], .jnull]))) jsonCodec
     (Or.inr (Or.inr rfl)) rfl rfl⟩
